import Mathlib

/-!
Verification development for the Ghalbir blockchain Ledger & Consensus Engine.

The repository ships only its entry-point scripts (`mine.py`, `run_api.py`,
`run_node.py`, `create_wallet.py`, `setup.py`); the core module
`src.core.blockchain` they import is not part of the source tree.  The core
definitions below are therefore modelled from the specification's description
of the Ledger & Consensus Engine; the entry-point logic (file-existence
fallback, command-line option resolution, the auto-mining loop body) is
translated directly from the scripts.

A hash string is modelled as a sequence of symbols (`List Nat`), and the
cryptographic hash function is idealised as an injective function of the
canonical encoding (a collision-free hash), as the specification requires
hash collisions to reflect only true field equality.
-/

namespace Ghalbir

/-- Modelled from the spec: a Transaction is
`{sender: identifier string, recipient: identifier string, amount: numeric}`. -/
structure Transaction where
  sender : String
  recipient : String
  amount : Int
deriving DecidableEq, Repr

/-- Modelled from the spec: the reserved sentinel sender identifier denoting
system-issued (reward) value; `mine.py` uses `"0x0"` for the system sender. -/
def SYSTEM_SENDER : String := "0x0"

/-- A hash string, modelled as a sequence of symbols. -/
abbrev HashStr := List Nat

/-- Modelled from the spec: a Block is `{index, timestamp, transactions,
previousHash, hash, nonce, difficultyTarget}`; `hash` is the output of a
deterministic canonical encoding of every other field fed through a
cryptographic hash function. -/
structure Block where
  index : Nat
  timestamp : Nat
  transactions : List Transaction
  previousHash : HashStr
  hash : HashStr
  nonce : Nat
  difficultyTarget : Nat
deriving DecidableEq, Repr

/-- Canonical encoding of a string field: length-prefixed character codes. -/
def encStr (s : String) : List Nat :=
  s.length :: s.data.map Char.toNat

/-- Canonical encoding of a numeric amount: sign symbol then magnitude. -/
def encInt (i : Int) : List Nat :=
  [if i < 0 then 1 else 0, i.natAbs]

/-- Canonical encoding of one transaction: sender, recipient, amount in order. -/
def encTx (t : Transaction) : List Nat :=
  encStr t.sender ++ encStr t.recipient ++ encInt t.amount

/-- Canonical encoding of an ordered transaction sequence: count-prefixed
concatenation of the transaction encodings. -/
def encTxs (ts : List Transaction) : List Nat :=
  ts.length :: ts.foldr (fun t acc => encTx t ++ acc) []

/-- Canonical encoding of a hash-string field: length-prefixed symbols. -/
def encHash (h : HashStr) : List Nat :=
  h.length :: h

/-- Modelled from the spec: `canonicalEncode(blockFieldsExcludingHash) -> bytes`,
an order-preserving, unambiguous encoding of every block field except the
stored hash, in the fixed field order index, timestamp, transactions,
previousHash, nonce, difficultyTarget. -/
def canonicalEncode (b : Block) : List Nat :=
  b.index :: b.timestamp ::
    (encTxs b.transactions ++ encHash b.previousHash ++ [b.nonce, b.difficultyTarget])

/-- The sentinel symbol that leading hash symbols must equal to satisfy the
difficulty predicate. -/
def sentinel : Nat := 0

/-- A content-dependent mixing value used to determine how many leading
sentinel symbols the ideal hash of an encoding carries. -/
def hashMix (l : List Nat) : Nat :=
  l.foldl (fun a n => a * 31 + n) 7

/-- Modelled from the spec: `computeHash(block) -> hashString`, a pure function
of the canonical encoding of the block's fields excluding the stored hash.
The cryptographic hash is idealised as an injective (collision-free) function:
a content-dependent run of leading sentinel symbols, a marker symbol, then the
canonical encoding shifted past the marker. -/
def computeHash (b : Block) : HashStr :=
  List.replicate (hashMix (canonicalEncode b) % 8) sentinel ++
    1 :: (canonicalEncode b).map (· + 2)

/-- Modelled from the spec: the difficulty predicate holds when the hash's
leading `difficulty` symbols equal the fixed sentinel value. -/
def meetsDifficulty (h : HashStr) (difficulty : Nat) : Bool :=
  h.take difficulty = List.replicate difficulty sentinel

/-- Modelled from the spec: `buildGenesis(params) -> Block`, the fixed,
deterministic genesis block; we fix the open design choice as: empty
transaction list, zero timestamp and nonce, empty previous hash, difficulty
target 0 (no target was in force when the genesis was created), stored hash
computed from those fields. -/
def genesisBlock : Block :=
  let base : Block :=
    { index := 0, timestamp := 0, transactions := [], previousHash := []
      hash := [], nonce := 0, difficultyTarget := 0 }
  { base with hash := computeHash base }

/-- Modelled from the spec: the engine state — configured difficulty and
mining reward, the authoritative chain, and the pending-transaction pool
(the Mempool), named as in the Python entry points. -/
structure Blockchain where
  difficulty : Nat
  mining_reward : Nat
  chain : List Block
  pending_transactions : List Transaction
deriving DecidableEq, Repr

/-- Modelled from the spec: chain construction — the genesis Block is created
once at chain construction, the Mempool starts empty. -/
def Blockchain.init (difficulty reward : Nat) : Blockchain :=
  { difficulty := difficulty, mining_reward := reward
    chain := [genesisBlock], pending_transactions := [] }

/-- Modelled from the spec: the classified error kinds of the engine. -/
inductive ErrKind where
  | StructuralValidationError
  | HashMismatchError
  | LinkageError
  | DifficultyNotMetError
  | NegativeBalanceError
  | PersistenceFormatError
  | StaleTipConflict
deriving DecidableEq, Repr

/-- Result of Mempool admission: accepted, or rejected with a reason. -/
inductive AddResult where
  | accepted
  | rejected (reason : ErrKind)
deriving DecidableEq, Repr

/-- Modelled from the spec: structural validity of a transaction — the amount
is non-negative and the sender/recipient identifiers are non-empty. -/
def txStructOk (t : Transaction) : Bool :=
  decide (0 ≤ t.amount) && !(t.sender = "") && !(t.recipient = "")

/-- Modelled from the spec: `add(tx) -> accepted | rejected(reason)` — Mempool
admission rejects with `StructuralValidationError` when `amount < 0` or an
identifier is empty, and does not check the sender's balance; an accepted
transaction is appended to the pool preserving admission order. -/
def Blockchain.add_transaction (bc : Blockchain) (t : Transaction) :
    Blockchain × AddResult :=
  if txStructOk t then
    ({ bc with pending_transactions := bc.pending_transactions ++ [t] },
      AddResult.accepted)
  else
    (bc, AddResult.rejected ErrKind.StructuralValidationError)

/-- The signed balance change a single transaction causes for one address:
the recipient's total increases by the amount; the sender's decreases by the
amount unless the sender is the reserved system identifier. -/
def txDelta (address : String) (t : Transaction) : Int :=
  (if t.recipient = address then t.amount else 0) -
    (if t.sender = address ∧ ¬ t.sender = SYSTEM_SENDER then t.amount else 0)

/-- All transactions of a chain in block-index order. -/
def chainTxs (c : List Block) : List Transaction :=
  c.foldr (fun b acc => b.transactions ++ acc) []

/-- Modelled from the spec: `balanceOf(address) -> amount` replays the
authoritative chain's transactions block by block in index order; pending
Mempool transactions are excluded. -/
def Blockchain.get_balance (bc : Blockchain) (address : String) : Int :=
  bc.chain.foldl
    (fun acc b => b.transactions.foldl (fun a t => a + txDelta address t) acc) 0

/-- Apply one transaction to a running balance table: debit the sender unless
it is the reserved system identifier, then credit the recipient. -/
def applyTx (bal : String → Int) (t : Transaction) : String → Int :=
  let afterDebit : String → Int :=
    if t.sender = SYSTEM_SENDER then bal
    else fun a => if a = t.sender then bal a - t.amount else bal a
  fun a => if a = t.recipient then afterDebit a + t.amount else afterDebit a

/-- Whether one transaction, applied to the given balances, leaves every
non-reserved address it touches non-negative. -/
def txReplayOk (bal : String → Int) (t : Transaction) : Bool :=
  (decide (t.sender = SYSTEM_SENDER) || decide (0 ≤ applyTx bal t t.sender)) &&
    (decide (t.recipient = SYSTEM_SENDER) || decide (0 ≤ applyTx bal t t.recipient))

/-- Replay a transaction list over a balance table, returning the updated
table, or `none` at the first transaction that drives a non-reserved address
negative. -/
def replayTxs (bal : String → Int) : List Transaction → Option (String → Int)
  | [] => some bal
  | t :: ts => if txReplayOk bal t then replayTxs (applyTx bal t) ts else none

/-- Replay a block sequence over a balance table, returning the index (within
the given numbering) of the first block whose transactions drive a
non-reserved address negative, or `none` if the whole replay stays
non-negative. -/
def replayBlocks (bal : String → Int) : List Block → Nat → Option Nat
  | [], _ => none
  | b :: rest, i =>
      match replayTxs bal b.transactions with
      | none => some i
      | some bal2 => replayBlocks bal2 rest (i + 1)

/-- Result of full-chain validation: valid, or invalid at a block index with a
classified reason. -/
inductive ValidateResult where
  | valid
  | invalid (atIndex : Nat) (reason : ErrKind)
deriving DecidableEq, Repr

/-- Per-link structural checks, for positions `i ≥ 1`: linkage
(`previousHash` equals the recomputed hash of the predecessor), hash integrity
(recomputed hash equals the stored hash), then difficulty satisfaction,
reporting the first failure. -/
def checkLinks (prev : Block) : List Block → Nat → Option (Nat × ErrKind)
  | [], _ => none
  | b :: rest, i =>
      if ¬ b.previousHash = computeHash prev then some (i, ErrKind.LinkageError)
      else if ¬ computeHash b = b.hash then some (i, ErrKind.HashMismatchError)
      else if ¬ meetsDifficulty b.hash b.difficultyTarget then
        some (i, ErrKind.DifficultyNotMetError)
      else checkLinks b rest (i + 1)

/-- Modelled from the spec: `validate(chain) -> valid | invalid(atIndex,
reason)` — the genesis block is checked only for exact equality with the
expected deterministic genesis; for i from 1 the linkage, hash-integrity and
difficulty checks run in order; then one full forward replay checks that no
non-reserved address's running balance goes negative, reporting the first
violating block index. -/
def validate (c : List Block) : ValidateResult :=
  match c with
  | [] => ValidateResult.invalid 0 ErrKind.StructuralValidationError
  | g :: rest =>
      if ¬ g = genesisBlock then
        ValidateResult.invalid 0 ErrKind.StructuralValidationError
      else
        match checkLinks g rest 1 with
        | some (i, e) => ValidateResult.invalid i e
        | none =>
            match replayBlocks (fun _ => 0) (g :: rest) 0 with
            | some i => ValidateResult.invalid i ErrKind.NegativeBalanceError
            | none => ValidateResult.valid

/-- Result of fork-choice: adopted, or rejected because the candidate was
invalid (with the failing index and reason) or not strictly longer. -/
inductive AdoptResult where
  | adopted
  | rejectedInvalid (atIndex : Nat) (reason : ErrKind)
  | rejectedNotLonger
deriving DecidableEq, Repr

/-- Modelled from the spec: after adoption the Mempool is reconciled —
transactions now embedded in the new chain are removed, and transactions that
existed only in the old chain's dropped blocks are re-admitted unless already
present, no longer structurally valid, or embedded in the new chain. -/
def reconcilePool (pending : List Transaction) (oldChain newChain : List Block) :
    List Transaction :=
  let newTxs := chainTxs newChain
  let kept := pending.filter (fun t => ¬ t ∈ newTxs)
  let dropped := (chainTxs oldChain).filter
    (fun t => txStructOk t ∧ ¬ t ∈ newTxs ∧ ¬ t ∈ kept)
  kept ++ dropped

/-- Modelled from the spec: `adoptIfBetter(candidateChain) -> adopted |
rejected(reason)` — the candidate replaces the local chain iff it validates
and is strictly longer; ties never replace; on rejection the local state is
left untouched and the failing index/reason is reported. -/
def Blockchain.adoptIfBetter (bc : Blockchain) (cand : List Block) :
    Blockchain × AdoptResult :=
  match validate cand with
  | ValidateResult.invalid i e => (bc, AdoptResult.rejectedInvalid i e)
  | ValidateResult.valid =>
      if bc.chain.length < cand.length then
        let pool := reconcilePool bc.pending_transactions bc.chain cand
        ({ bc with chain := cand, pending_transactions := pool }, AdoptResult.adopted)
      else (bc, AdoptResult.rejectedNotLonger)

/-- Search for the least nonce below `fuel` whose block hash satisfies the
difficulty predicate. -/
def findNonce (base : Block) (difficulty : Nat) : Nat → Option Nat
  | 0 => none
  | fuel + 1 =>
      let tried := base.nonce
      if meetsDifficulty (computeHash base) difficulty then some tried
      else findNonce { base with nonce := tried + 1 } difficulty fuel

/-- The reward transaction the Miner synthesizes: system sender, miner
address recipient, configured reward amount. -/
def rewardTx (bc : Blockchain) (minerAddress : String) : Transaction :=
  { sender := SYSTEM_SENDER, recipient := minerAddress
    amount := (bc.mining_reward : Int) }

/-- The candidate block the Miner assembles before the nonce search:
index tip.index+1, previousHash the hash of the tip, transaction list the
pending pool followed by the reward, the configured difficulty target, and
nonce 0. -/
def mineBase (bc : Blockchain) (minerAddress : String) (timestamp : Nat)
    (tip : Block) : Block :=
  { index := tip.index + 1, timestamp := timestamp
    transactions := bc.pending_transactions ++ [rewardTx bc minerAddress]
    previousHash := computeHash tip, hash := []
    nonce := 0, difficultyTarget := bc.difficulty }

/-- The block committed after a successful nonce search: the candidate with
the solving nonce, its stored hash set to its computed hash. -/
def minedBlock (bc : Blockchain) (minerAddress : String) (timestamp : Nat)
    (tip : Block) (n : Nat) : Block :=
  let solved := { mineBase bc minerAddress timestamp tip with nonce := n }
  { solved with hash := computeHash solved }

/-- Modelled from the spec: the Proof-of-Work Miner — synthesize the reward
transaction, form the transaction list as pending pool plus reward, build the
candidate block against the current tip, then search nonces from 0.  The
unbounded CPU-bound search is given an explicit fuel; on success the block is
appended and the included transactions leave the Mempool.  The timestamp is
passed in explicitly. -/
def Blockchain.mine_pending_transactions (bc : Blockchain) (minerAddress : String)
    (timestamp fuel : Nat) : Option (Blockchain × Block) :=
  match bc.chain.getLast? with
  | none => none
  | some tip =>
      match findNonce (mineBase bc minerAddress timestamp tip) bc.difficulty fuel with
      | none => none
      | some n =>
          let final := minedBlock bc minerAddress timestamp tip n
          some ({ bc with chain := bc.chain ++ [final], pending_transactions := [] },
            final)

/-- Persisted record of one transaction, in the fixed field order
sender, recipient, amount. -/
abbrev TxRecord := String × String × Int

/-- Persisted record of one block, in the fixed field order index, timestamp,
transactions, previousHash, hash, nonce, difficultyTarget. -/
abbrev BlockRecord := Nat × Nat × List TxRecord × HashStr × HashStr × Nat × Nat

/-- Serialize one transaction. -/
def saveTx (t : Transaction) : TxRecord := (t.sender, t.recipient, t.amount)

/-- Deserialize one transaction. -/
def loadTx (r : TxRecord) : Transaction :=
  { sender := r.1, recipient := r.2.1, amount := r.2.2 }

/-- Serialize one block with stable field ordering. -/
def saveBlock (b : Block) : BlockRecord :=
  (b.index, b.timestamp, b.transactions.map saveTx, b.previousHash, b.hash,
    b.nonce, b.difficultyTarget)

/-- Deserialize one block. -/
def loadBlock (r : BlockRecord) : Block :=
  { index := r.1, timestamp := r.2.1, transactions := r.2.2.1.map loadTx
    previousHash := r.2.2.2.1, hash := r.2.2.2.2.1
    nonce := r.2.2.2.2.2.1, difficultyTarget := r.2.2.2.2.2.2 }

/-- Modelled from the spec: `save(chain) -> serializedForm`, the structured
encoding of the full ordered block sequence with nested ordered transaction
sequences and stable field ordering. -/
def saveChain (c : List Block) : List BlockRecord := c.map saveBlock

/-- Modelled from the spec: `load(serializedForm) -> chain`, reconstructing
the in-memory chain with every field preserved exactly. -/
def loadChain (rs : List BlockRecord) : List Block := rs.map loadBlock

/-- Python's `x or y` for an optional string command-line argument: the
argument takes effect only when present and truthy (non-empty). -/
def pyOrStr (cli : Option String) (fallback : String) : String :=
  match cli with
  | none => fallback
  | some s => if s = "" then fallback else s

/-- Python's `x or y` for an optional integer command-line argument: the
argument takes effect only when present and truthy (non-zero). -/
def pyOrInt (cli : Option Int) (fallback : Int) : Int :=
  match cli with
  | none => fallback
  | some v => if v = 0 then fallback else v

/-- Python's `dict.get(key, default)`: the configured value when the key is
present — even when falsy — otherwise the default. -/
def dictGetInt (cfg : Option Int) (dflt : Int) : Int := cfg.getD dflt

/-- Python's `dict.get(key, default)` for string-valued settings. -/
def dictGetStr (cfg : Option String) (dflt : String) : String := cfg.getD dflt

/-- Command-line arguments of `run_node.py` (each `none` when not passed). -/
structure NodeArgs where
  host : Option String
  port : Option Int
  difficulty : Option Int
  mining_reward : Option Int

/-- The `node` section of `config.json` (each `none` when the key is absent). -/
structure NodeConfig where
  host : Option String
  port : Option Int
  difficulty : Option Int
  mining_reward : Option Int

/-- The settings `run_node.py` ends up running with. -/
structure NodeSettings where
  host : String
  port : Int
  difficulty : Int
  mining_reward : Int
deriving DecidableEq, Repr

/-- From `src/run_node.py` lines 26-29: each setting is
`args.X or config.get('node', {}).get('X', default)` with built-in defaults
host "0.0.0.0", port 5000, difficulty 4, mining reward 50. -/
def resolveNodeSettings (args : NodeArgs) (config : NodeConfig) : NodeSettings :=
  { host := pyOrStr args.host (dictGetStr config.host "0.0.0.0")
    port := pyOrInt args.port (dictGetInt config.port 5000)
    difficulty := pyOrInt args.difficulty (dictGetInt config.difficulty 4)
    mining_reward := pyOrInt args.mining_reward (dictGetInt config.mining_reward 50) }

/-- How an entry point obtains its blockchain: loading the persisted file, or
constructing a fresh one. -/
inductive ChainInit where
  | loadFromFile (file : String)
  | fresh (bc : Blockchain)
deriving DecidableEq, Repr

/-- Modelled from the spec: the parameters of the bare `Blockchain()`
constructor the entry points call when no persisted file exists (the core
module is not in the source tree; the spec fixes only that construction
starts from the deterministic genesis block). -/
def freshBlockchain : Blockchain := Blockchain.init 4 50

/-- From `src/mine.py` lines 32-37: the blockchain file defaults to
"blockchain.json"; when the file exists the chain is loaded from it,
otherwise a fresh blockchain is constructed. -/
def mineChainInit (fileArg : Option String) (fileExists : Bool) : ChainInit :=
  let file := pyOrStr fileArg "blockchain.json"
  if fileExists then ChainInit.loadFromFile file
  else ChainInit.fresh freshBlockchain

/-- From `src/run_api.py` lines 28-34: identical fallback logic to `mine.py` —
load the file when it exists, otherwise a fresh blockchain. -/
def apiChainInit (fileArg : Option String) (fileExists : Bool) : ChainInit :=
  let file := pyOrStr fileArg "blockchain.json"
  if fileExists then ChainInit.loadFromFile file
  else ChainInit.fresh freshBlockchain

/-- From `src/mine.py` lines 53-64: one iteration of the automatic mining
loop — when the pending pool is empty, a dummy transaction from the system
sender "0x0" to the miner's own address with amount 0 is submitted first,
then a block is mined.  Returns the pool at the start of the nonce search
together with the mining outcome. -/
def autoMineStep (bc : Blockchain) (address : String) (timestamp fuel : Nat) :
    List Transaction × Option (Blockchain × Block) :=
  let bc1 :=
    if bc.pending_transactions.length = 0 then
      (bc.add_transaction { sender := "0x0", recipient := address, amount := 0 }).1
    else bc
  (bc1.pending_transactions, bc1.mine_pending_transactions address timestamp fuel)

/-- The spec's replay-based balance, written directly over the flattened
transaction sequence of the chain in index order. -/
def replayBalance (c : List Block) (address : String) : Int :=
  (chainTxs c).foldl (fun acc t => acc + txDelta address t) 0

/-- Equality of two blocks on every field except the stored hash. -/
def FieldsEq (b1 b2 : Block) : Prop :=
  b1.index = b2.index ∧ b1.timestamp = b2.timestamp ∧
    b1.transactions = b2.transactions ∧ b1.previousHash = b2.previousHash ∧
    b1.nonce = b2.nonce ∧ b1.difficultyTarget = b2.difficultyTarget

/-- The linkage relation between adjacent blocks: the successor's stored
previousHash is the recomputed hash of its predecessor. -/
def LinkRel (a b : Block) : Prop := b.previousHash = computeHash a

/-- Chain invariant 2: for every i ≥ 1,
`chain[i].previousHash = hash(chain[i-1])`. -/
def LinkageInv (c : List Block) : Prop :=
  ∀ (i : Nat) (h : i < c.length), 1 ≤ i →
    (c.get ⟨i, h⟩).previousHash =
      computeHash (c.get ⟨i - 1, Nat.lt_of_le_of_lt (Nat.sub_le i 1) h⟩)

/-- Chain invariant 3: for every i, recomputing the hash from
`chain[i]`'s own fields yields exactly `chain[i].hash`. -/
def IntegrityInv (c : List Block) : Prop :=
  ∀ (i : Nat) (h : i < c.length),
    computeHash (c.get ⟨i, h⟩) = (c.get ⟨i, h⟩).hash

/-- Chain invariant 5: replaying all transactions in index order never drives
any non-reserved address's running balance negative (every prefix of the
flattened transaction sequence leaves every non-reserved address
non-negative). -/
def BalanceInv (c : List Block) : Prop :=
  ∀ (n : Nat) (x : String), ¬ x = SYSTEM_SENDER →
    0 ≤ ((chainTxs c).take n).foldl applyTx (fun _ => 0) x

/-- The three chain invariants of the claim taken together. -/
def ChainInvariants (c : List Block) : Prop :=
  LinkageInv c ∧ IntegrityInv c ∧ BalanceInv c

/-- States of the engine reachable via genesis construction, Mempool
submission, append of a mined block, and fork-choice replacement. -/
inductive Reachable : Blockchain → Prop where
  | init (d r : Nat) : Reachable (Blockchain.init d r)
  | submit (bc : Blockchain) (t : Transaction) :
      Reachable bc → Reachable (bc.add_transaction t).1
  | mined (bc : Blockchain) (a : String) (ts fuel : Nat) (out : Blockchain × Block) :
      Reachable bc → bc.mine_pending_transactions a ts fuel = some out →
      Reachable out.1
  | adopted (bc : Blockchain) (cand : List Block) :
      Reachable bc → Reachable (bc.adoptIfBetter cand).1

/-- States reachable without mining: genesis construction, Mempool
submission and fork-choice replacement only. -/
inductive ReachableUnmined : Blockchain → Prop where
  | init (d r : Nat) : ReachableUnmined (Blockchain.init d r)
  | submit (bc : Blockchain) (t : Transaction) :
      ReachableUnmined bc → ReachableUnmined (bc.add_transaction t).1
  | adopted (bc : Blockchain) (cand : List Block) :
      ReachableUnmined bc → ReachableUnmined (bc.adoptIfBetter cand).1

/-- A fresh difficulty-0 engine after submitting a structurally valid but
unfunded transfer of 5 from "A" to "B". -/
def bcBadPre : Blockchain :=
  ((Blockchain.init 0 50).add_transaction
    { sender := "A", recipient := "B", amount := 5 }).1

/-- The outcome of mining that unfunded transfer into a block. -/
def bcBadOut : Blockchain × Block :=
  (bcBadPre.mine_pending_transactions "M" 0 8).getD (Blockchain.init 0 50, genesisBlock)

/-- The reachable state whose chain contains the unfunded transfer. -/
def bcBad : Blockchain := bcBadOut.1

/-- One auto-mining iteration started with an empty miner address and an
empty pool. -/
def emptyAddrStep : List Transaction × Option (Blockchain × Block) :=
  autoMineStep (Blockchain.init 0 50) "" 0 8

end Ghalbir

namespace Ghalbir

/-! ## Helper lemmas -/

theorem add_transaction_chain (bc : Blockchain) (t : Transaction) :
    (bc.add_transaction t).1.chain = bc.chain := by
  unfold Blockchain.add_transaction
  split <;> rfl

theorem foldl_blocks_eq_foldl_chainTxs (step : Int → Transaction → Int) :
    ∀ (c : List Block) (a : Int),
      c.foldl (fun acc b => b.transactions.foldl step acc) a =
        (chainTxs c).foldl step a := by
  intro c
  induction c with
  | nil => intro a; rfl
  | cons b rest ih =>
      intro a
      show rest.foldl _ (b.transactions.foldl step a) =
        (b.transactions ++ chainTxs rest).foldl step a
      rw [List.foldl_append, ih]

theorem findNonce_spec : ∀ (fuel : Nat) (base : Block) (d n : Nat),
    findNonce base d fuel = some n →
    meetsDifficulty (computeHash { base with nonce := n }) d = true := by
  intro fuel
  induction fuel with
  | zero => intro base d n h; simp [findNonce] at h
  | succ f ih =>
      intro base d n h
      unfold findNonce at h
      by_cases hm : meetsDifficulty (computeHash base) d
      · rw [if_pos hm] at h
        injection h with h
        subst h
        exact hm
      · rw [if_neg hm] at h
        exact ih { base with nonce := base.nonce + 1 } d n h

theorem mine_some_eq {bc : Blockchain} {a : String} {ts fuel : Nat}
    {out : Blockchain × Block}
    (h : bc.mine_pending_transactions a ts fuel = some out) :
    ∃ tip n, bc.chain.getLast? = some tip ∧
      findNonce (mineBase bc a ts tip) bc.difficulty fuel = some n ∧
      out.2 = minedBlock bc a ts tip n ∧
      out.1.chain = bc.chain ++ [minedBlock bc a ts tip n] ∧
      out.1.pending_transactions = [] ∧
      out.1.difficulty = bc.difficulty ∧ out.1.mining_reward = bc.mining_reward := by
  unfold Blockchain.mine_pending_transactions at h
  cases hl : bc.chain.getLast? with
  | none => rw [hl] at h; exact absurd h (by simp)
  | some tip =>
      rw [hl] at h
      dsimp only at h
      cases hf : findNonce (mineBase bc a ts tip) bc.difficulty fuel with
      | none => rw [hf] at h; exact absurd h (by simp)
      | some n =>
          rw [hf] at h
          dsimp only at h
          simp only [Option.some.injEq] at h
          subst h
          exact ⟨tip, n, rfl, hf, rfl, rfl, rfl, rfl, rfl⟩

theorem minedBlock_fields (bc : Blockchain) (a : String) (ts : Nat) (tip : Block)
    (n : Nat) :
    (minedBlock bc a ts tip n).previousHash = computeHash tip ∧
    (minedBlock bc a ts tip n).transactions =
      bc.pending_transactions ++ [rewardTx bc a] ∧
    computeHash (minedBlock bc a ts tip n) = (minedBlock bc a ts tip n).hash := by
  refine ⟨rfl, rfl, ?_⟩
  unfold minedBlock
  rfl

/-! ## C1: fork-choice rule -/

/-- C1: `adoptIfBetter(C)` replaces the local chain iff `validate(C)` succeeds
and `C` is strictly longer; when the candidate is rejected (invalid, shorter
or equal length) the local state is left completely unchanged and the failing
index/reason (or the non-longer rejection) is reported to the caller. -/
theorem adoptIfBetter_spec (bc : Blockchain) (cand : List Block) :
    ((bc.adoptIfBetter cand).2 = AdoptResult.adopted ↔
      validate cand = ValidateResult.valid ∧ bc.chain.length < cand.length) ∧
    ((bc.adoptIfBetter cand).2 = AdoptResult.adopted →
      (bc.adoptIfBetter cand).1.chain = cand) ∧
    (¬ (bc.adoptIfBetter cand).2 = AdoptResult.adopted →
      (bc.adoptIfBetter cand).1 = bc) ∧
    (∀ i e, validate cand = ValidateResult.invalid i e →
      (bc.adoptIfBetter cand).2 = AdoptResult.rejectedInvalid i e) ∧
    (validate cand = ValidateResult.valid → ¬ bc.chain.length < cand.length →
      (bc.adoptIfBetter cand).2 = AdoptResult.rejectedNotLonger) := by
  unfold Blockchain.adoptIfBetter
  cases hv : validate cand with
  | invalid i e => simp
  | valid =>
      by_cases hl : bc.chain.length < cand.length <;> simp [hl]

/-- Witness for C1: from the fresh local chain of length 1, a concretely
mined valid candidate of length 2 is adopted and becomes the local chain,
while the old (equal-length) chain itself is rejected without change. -/
theorem adoptIfBetter_spec_witness :
    ((Blockchain.init 4 50).adoptIfBetter
        ((((Blockchain.init 4 50).mine_pending_transactions "addr-A" 0 64).map
          (fun p => p.1.chain)).getD [])).2 = AdoptResult.adopted ∧
    ((Blockchain.init 4 50).adoptIfBetter
        ((Blockchain.init 4 50).chain)).1 = Blockchain.init 4 50 := by
  refine ⟨(adoptIfBetter_spec (Blockchain.init 4 50) _).1.mpr ⟨by decide, by decide⟩, ?_⟩
  exact (adoptIfBetter_spec (Blockchain.init 4 50) _).2.2.1 (by decide)

/-! ## C2: chain invariants over reachable states -/

theorem linkChain_to_linkageInv {c : List Block} (h : List.Chain' LinkRel c) :
    LinkageInv c := by
  intro i hi h1
  have h2 : i - 1 < c.length - 1 := by omega
  have hr := List.chain'_iff_get.mp h (i - 1) h2
  have he : i - 1 + 1 = i := by omega
  unfold LinkRel at hr
  simp only [he] at hr
  exact hr

theorem integrityAll_to_inv {c : List Block}
    (h : ∀ b ∈ c, computeHash b = b.hash) : IntegrityInv c := by
  intro i hi
  exact h _ (c.get_mem i hi)

theorem checkLinks_none_spec : ∀ (rest : List Block) (prev : Block) (i : Nat),
    checkLinks prev rest i = none →
    List.Chain' LinkRel (prev :: rest) ∧ ∀ b ∈ rest, computeHash b = b.hash := by
  intro rest
  induction rest with
  | nil =>
      intro prev i h
      exact ⟨List.chain'_singleton prev, by simp⟩
  | cons b bs ih =>
      intro prev i h
      unfold checkLinks at h
      split_ifs at h with h1 h2 h3
      obtain ⟨hc, hint⟩ := ih b (i + 1) h
      refine ⟨List.chain'_cons.mpr ⟨h1, hc⟩, ?_⟩
      intro x hx
      rcases List.mem_cons.mp hx with hx | hx
      · subst hx; exact h2
      · exact hint x hx

theorem applyTx_untouched {bal : String → Int} {t : Transaction} {x : String}
    (h1 : ¬ x = t.sender) (h2 : ¬ x = t.recipient) :
    applyTx bal t x = bal x := by
  unfold applyTx
  by_cases hs : t.sender = SYSTEM_SENDER <;> simp [hs, h1, h2]

theorem txReplayOk_preserves {bal : String → Int} {t : Transaction}
    (hok : txReplayOk bal t = true)
    (hnn : ∀ x, ¬ x = SYSTEM_SENDER → 0 ≤ bal x) :
    ∀ x, ¬ x = SYSTEM_SENDER → 0 ≤ applyTx bal t x := by
  have hok2 : (t.sender = SYSTEM_SENDER ∨ 0 ≤ applyTx bal t t.sender) ∧
      (t.recipient = SYSTEM_SENDER ∨ 0 ≤ applyTx bal t t.recipient) := by
    simpa [txReplayOk] using hok
  intro x hx
  by_cases hr : x = t.recipient
  · subst hr
    rcases hok2.2 with h | h
    · exact absurd h hx
    · exact h
  · by_cases hs : x = t.sender
    · subst hs
      rcases hok2.1 with h | h
      · exact absurd h hx
      · exact h
    · rw [applyTx_untouched hs hr]
      exact hnn x hx

theorem replayTxs_sound : ∀ (ts : List Transaction) (bal bal2 : String → Int),
    (∀ x, ¬ x = SYSTEM_SENDER → 0 ≤ bal x) →
    replayTxs bal ts = some bal2 →
    bal2 = ts.foldl applyTx bal ∧
    ∀ (n : Nat) (x : String), ¬ x = SYSTEM_SENDER →
      0 ≤ ((ts.take n).foldl applyTx bal) x := by
  intro ts
  induction ts with
  | nil =>
      intro bal bal2 hnn h
      simp only [replayTxs, Option.some.injEq] at h
      subst h
      exact ⟨rfl, fun n x hx => by simpa using hnn x hx⟩
  | cons t ts ih =>
      intro bal bal2 hnn h
      unfold replayTxs at h
      split_ifs at h with hok
      · have hnn2 := txReplayOk_preserves hok hnn
        obtain ⟨h1, h2⟩ := ih (applyTx bal t) bal2 hnn2 h
        refine ⟨by simpa using h1, ?_⟩
        intro n x hx
        cases n with
        | zero => simpa using hnn x hx
        | succ m => simpa using h2 m x hx

theorem replayBlocks_sound : ∀ (bs : List Block) (bal : String → Int) (i : Nat),
    (∀ x, ¬ x = SYSTEM_SENDER → 0 ≤ bal x) →
    replayBlocks bal bs i = none →
    ∀ (n : Nat) (x : String), ¬ x = SYSTEM_SENDER →
      0 ≤ (((chainTxs bs).take n).foldl applyTx bal) x := by
  intro bs
  induction bs with
  | nil =>
      intro bal i hnn h n x hx
      simpa [chainTxs] using hnn x hx
  | cons b bs ih =>
      intro bal i hnn h n x hx
      unfold replayBlocks at h
      cases hr : replayTxs bal b.transactions with
      | none => rw [hr] at h; simp at h
      | some bal2 =>
          rw [hr] at h
          dsimp only at h
          obtain ⟨h1, h2⟩ := replayTxs_sound b.transactions bal bal2 hnn hr
          have hnn2 : ∀ y, ¬ y = SYSTEM_SENDER → 0 ≤ bal2 y := by
            intro y hy
            rw [h1]
            simpa using h2 b.transactions.length y hy
          have ih2 := ih bal2 (i + 1) hnn2 h
          have hsplit : chainTxs (b :: bs) = b.transactions ++ chainTxs bs := rfl
          rw [hsplit, List.take_append_eq_append_take, List.foldl_append]
          by_cases hn : n ≤ b.transactions.length
          · have hz : n - b.transactions.length = 0 := by omega
            rw [hz]
            simpa using h2 n x hx
          · rw [List.take_of_length_le (by omega)]
            rw [← h1]
            exact ih2 (n - b.transactions.length) x hx

theorem validate_valid_elim {c : List Block}
    (h : validate c = ValidateResult.valid) :
    ∃ rest, c = genesisBlock :: rest ∧ checkLinks genesisBlock rest 1 = none ∧
      replayBlocks (fun _ => 0) c 0 = none := by
  cases c with
  | nil => simp [validate] at h
  | cons g rest =>
      unfold validate at h
      dsimp only at h
      by_cases hg : g = genesisBlock
      · rw [if_neg (not_not_intro hg)] at h
        subst hg
        cases hcl : checkLinks genesisBlock rest 1 with
        | some p =>
            obtain ⟨pi, pe⟩ := p
            rw [hcl] at h
            simp at h
        | none =>
            rw [hcl] at h
            dsimp only at h
            cases hrep : replayBlocks (fun _ => 0) (genesisBlock :: rest) 0 with
            | some i => rw [hrep] at h; simp at h
            | none => exact ⟨rest, rfl, hcl, rfl⟩
      · rw [if_pos hg] at h
        simp at h

theorem validate_valid_invariants {c : List Block}
    (h : validate c = ValidateResult.valid) :
    List.Chain' LinkRel c ∧ (∀ b ∈ c, computeHash b = b.hash) ∧ BalanceInv c := by
  obtain ⟨rest, hc, hcl, hrep⟩ := validate_valid_elim h
  obtain ⟨hchain, hint⟩ := checkLinks_none_spec rest genesisBlock 1 hcl
  subst hc
  refine ⟨hchain, ?_, ?_⟩
  · intro b hb
    rcases List.mem_cons.mp hb with hb | hb
    · subst hb; rfl
    · exact hint b hb
  · intro n x hx
    exact replayBlocks_sound (genesisBlock :: rest) (fun _ => 0) 0
      (fun y hy => le_refl 0) hrep n x hx

theorem adopt_chain_cases (bc : Blockchain) (cand : List Block) :
    (bc.adoptIfBetter cand).1 = bc ∨
      ((bc.adoptIfBetter cand).1.chain = cand ∧
        validate cand = ValidateResult.valid) := by
  unfold Blockchain.adoptIfBetter
  cases hv : validate cand with
  | invalid i e => left; rfl
  | valid =>
      by_cases hl : bc.chain.length < cand.length
      · refine Or.inr ⟨?_, rfl⟩
        simp [hl]
      · left
        simp [hl]

theorem reachable_link_integrity : ∀ bc, Reachable bc →
    List.Chain' LinkRel bc.chain ∧ ∀ b ∈ bc.chain, computeHash b = b.hash := by
  intro bc h
  induction h with
  | init d r =>
      refine ⟨List.chain'_singleton _, ?_⟩
      intro b hb
      rw [List.mem_singleton.mp hb]
      rfl
  | submit bc t hre ih => rwa [add_transaction_chain]
  | mined bc a ts fuel out hre hm ih =>
      obtain ⟨tip, n, hl, hf, hout2, hchain, _, _, _⟩ := mine_some_eq hm
      rw [hchain]
      obtain ⟨hprev, htxs, hint⟩ := minedBlock_fields bc a ts tip n
      constructor
      · apply List.chain'_append.mpr
        refine ⟨ih.1, List.chain'_singleton _, ?_⟩
        intro x hx y hy
        simp only [List.head?_cons, Option.mem_def, Option.some.injEq] at hy
        rw [hl] at hx
        simp only [Option.mem_def, Option.some.injEq] at hx
        subst hx
        rw [← hy]
        exact hprev
      · intro b hb
        rcases List.mem_append.mp hb with hb | hb
        · exact ih.2 b hb
        · rw [List.mem_singleton.mp hb]
          exact hint
  | adopted bc cand hre ih =>
      rcases adopt_chain_cases bc cand with hsame | ⟨hchain, hv⟩
      · rwa [hsame]
      · rw [hchain]
        obtain ⟨h1, h2, _⟩ := validate_valid_invariants hv
        exact ⟨h1, h2⟩

theorem reachableUnmined_balance : ∀ bc, ReachableUnmined bc →
    BalanceInv bc.chain := by
  intro bc h
  induction h with
  | init d r =>
      intro n x hx
      have hz : chainTxs (Blockchain.init d r).chain = [] := rfl
      rw [hz]
      simp
  | submit bc t hre ih => rwa [add_transaction_chain]
  | adopted bc cand hre ih =>
      rcases adopt_chain_cases bc cand with hsame | ⟨hchain, hv⟩
      · rwa [hsame]
      · rw [hchain]
        exact (validate_valid_invariants hv).2.2

/-- Counterexample to C2 as stated: the state reached by submitting a
structurally valid but unfunded transfer and mining it is reachable, yet the
replay invariant fails — mining appends pending transactions without balance
validation. -/
theorem chain_invariants_counterexample :
    Reachable bcBad ∧ ¬ ChainInvariants bcBad.chain := by
  constructor
  · exact Reachable.mined bcBadPre "M" 0 8 bcBadOut
      (Reachable.submit (Blockchain.init 0 50) _ (Reachable.init 0 50)) (by decide)
  · rintro ⟨-, -, hbal⟩
    exact absurd (hbal 1 "A" (by decide)) (by decide)

/-- C2 amended: every reachable state of the authoritative chain satisfies
the linkage and hash-integrity invariants; the no-negative-balance invariant
is guaranteed for every state reachable without mining (genesis construction,
transaction submission and fork-choice replacement), but is not established
by mining, which appends pending transactions without balance validation. -/
theorem chain_invariants_spec :
    (∀ bc, Reachable bc → LinkageInv bc.chain ∧ IntegrityInv bc.chain) ∧
    (∀ bc, ReachableUnmined bc → BalanceInv bc.chain) := by
  constructor
  · intro bc h
    obtain ⟨h1, h2⟩ := reachable_link_integrity bc h
    exact ⟨linkChain_to_linkageInv h1, integrityAll_to_inv h2⟩
  · exact reachableUnmined_balance

/-- Witness for the amended C2: the freshly constructed difficulty-2 chain
satisfies all three invariants. -/
theorem chain_invariants_spec_witness :
    (LinkageInv (Blockchain.init 2 50).chain ∧
      IntegrityInv (Blockchain.init 2 50).chain) ∧
    BalanceInv (Blockchain.init 2 50).chain :=
  ⟨chain_invariants_spec.1 (Blockchain.init 2 50) (Reachable.init 2 50),
    chain_invariants_spec.2 (Blockchain.init 2 50) (ReachableUnmined.init 2 50)⟩

/-! ## C3: mined-block guarantees -/

/-- C3: every block returned by mining satisfies the active difficulty
predicate, has `previousHash` equal to the hash of the tip at submission, and
contains the synthesized reward transaction (system sender, miner recipient,
configured reward); the concrete difficulty-2 / reward-50 scenario yields
balance 50 for "addr-A", chain length 2 and a hash beginning with the
two-symbol difficulty sentinel. -/
theorem mine_spec :
    (∀ (bc : Blockchain) (a : String) (ts fuel : Nat) (out : Blockchain × Block),
      bc.mine_pending_transactions a ts fuel = some out →
      meetsDifficulty out.2.hash bc.difficulty = true ∧
      (∃ tip, bc.chain.getLast? = some tip ∧ out.2.previousHash = computeHash tip) ∧
      rewardTx bc a ∈ out.2.transactions ∧
      (rewardTx bc a).sender = SYSTEM_SENDER ∧ (rewardTx bc a).recipient = a ∧
      (rewardTx bc a).amount = (bc.mining_reward : Int) ∧
      out.1.chain = bc.chain ++ [out.2]) ∧
    ((Blockchain.init 2 50).mine_pending_transactions "addr-A" 0 16).map
        (fun p => (p.1.get_balance "addr-A", p.1.chain.length, p.2.hash.take 2)) =
      some (50, 2, [sentinel, sentinel]) := by
  constructor
  · intro bc a ts fuel out h
    obtain ⟨tip, n, hl, hf, hout2, hchain, hpend, hd, hr⟩ := mine_some_eq h
    obtain ⟨hprev, htxs, hint⟩ := minedBlock_fields bc a ts tip n
    have hmeets := findNonce_spec fuel (mineBase bc a ts tip) bc.difficulty n hf
    refine ⟨?_, ⟨tip, hl, by rw [hout2]; exact hprev⟩, ?_, rfl, rfl, rfl, ?_⟩
    · rw [hout2]
      exact hmeets
    · rw [hout2, htxs]
      simp
    · rw [hchain, hout2]
  · decide

/-- Witness for C3: the concretely mined difficulty-2 block satisfies the
difficulty predicate. -/
theorem mine_spec_witness :
    meetsDifficulty (((Blockchain.init 2 50).mine_pending_transactions "addr-A" 0 16).getD
        (Blockchain.init 2 50, genesisBlock)).2.hash (Blockchain.init 2 50).difficulty = true :=
  (mine_spec.1 (Blockchain.init 2 50) "addr-A" 0 16
    (((Blockchain.init 2 50).mine_pending_transactions "addr-A" 0 16).getD
        (Blockchain.init 2 50, genesisBlock)) (by decide)).1

/-! ## C4: balance derivation -/

/-- C4: `balanceOf(address)` equals the replay of the authoritative chain's
transactions in index order under the credit-recipient / debit-non-system-
sender rule, and pending Mempool transactions contribute nothing. -/
theorem get_balance_spec (bc : Blockchain) (address : String) :
    bc.get_balance address = replayBalance bc.chain address ∧
    (∀ p, Blockchain.get_balance
        { bc with pending_transactions := p } address = bc.get_balance address) := by
  refine ⟨?_, fun p => rfl⟩
  unfold Blockchain.get_balance replayBalance
  exact foldl_blocks_eq_foldl_chainTxs _ bc.chain 0

/-! ## C5: Mempool admission -/

/-- C5: Mempool admission rejects with `StructuralValidationError` exactly
when the amount is negative or an identifier is empty; the decision never
inspects the rest of the engine state (in particular no balance); a rejected
transaction leaves the state untouched and never reaches the chain; the
concrete negative-amount submission is rejected. -/
theorem add_transaction_spec (bc : Blockchain) (t : Transaction) :
    ((bc.add_transaction t).2 = AddResult.rejected ErrKind.StructuralValidationError ↔
      (t.amount < 0 ∨ t.sender = "" ∨ t.recipient = "")) ∧
    (∀ bc2 : Blockchain, (bc.add_transaction t).2 = (bc2.add_transaction t).2) ∧
    ((bc.add_transaction t).1.chain = bc.chain) ∧
    (¬ (bc.add_transaction t).2 = AddResult.accepted → (bc.add_transaction t).1 = bc) ∧
    (((Blockchain.init 4 50).add_transaction
        { sender := "addr-A", recipient := "addr-B", amount := -10 }).2 =
      AddResult.rejected ErrKind.StructuralValidationError) := by
  have hok : txStructOk t = true ↔
      (0 ≤ t.amount ∧ ¬ t.sender = "" ∧ ¬ t.recipient = "") := by
    simp [txStructOk]
    tauto
  refine ⟨?_, ?_, add_transaction_chain bc t, ?_, by decide⟩
  · unfold Blockchain.add_transaction
    by_cases h : txStructOk t
    · simp [h]
      exact hok.mp h
    · simp [h]
      have hn := h
      rw [hok] at hn
      push_neg at hn
      rcases lt_or_ge t.amount 0 with ha | ha
      · exact Or.inl ha
      · by_cases hs : t.sender = ""
        · exact Or.inr (Or.inl hs)
        · exact Or.inr (Or.inr (hn ha hs))
  · intro bc2
    unfold Blockchain.add_transaction
    by_cases h : txStructOk t <;> simp [h]
  · unfold Blockchain.add_transaction
    by_cases h : txStructOk t <;> simp [h]

/-- Witness for C5: the concrete negative-amount transaction is rejected and
the state is unchanged. -/
theorem add_transaction_spec_witness :
    ((Blockchain.init 4 50).add_transaction
        { sender := "addr-A", recipient := "addr-B", amount := -10 }).1 =
      Blockchain.init 4 50 :=
  (add_transaction_spec (Blockchain.init 4 50)
      { sender := "addr-A", recipient := "addr-B", amount := -10 }).2.2.2.1
    (by decide)

/-! ## C6: persistence round-trip -/

/-- C6: `load(save(C))` is structurally equal to `C` with every field of
every block and transaction preserved, and validation of the reloaded chain
agrees with validation of the original. -/
theorem persistence_roundtrip (c : List Block) :
    loadChain (saveChain c) = c ∧
    validate (loadChain (saveChain c)) = validate c := by
  have h : loadChain (saveChain c) = c := by
    unfold loadChain saveChain
    rw [List.map_map]
    have hb : ∀ b : Block, (loadBlock ∘ saveBlock) b = b := by
      intro b
      show loadBlock (saveBlock b) = b
      have htx : ((b.transactions.map saveTx).map loadTx) = b.transactions := by
        rw [List.map_map]
        calc b.transactions.map (loadTx ∘ saveTx)
            = b.transactions.map id := List.map_congr_left fun t _ => rfl
          _ = b.transactions := List.map_id _
      unfold loadBlock saveBlock
      simp only at htx ⊢
      rw [htx]
    calc c.map (loadBlock ∘ saveBlock) = c.map id := List.map_congr_left fun b _ => hb b
      _ = c := List.map_id c
  exact ⟨h, by rw [h]⟩

/-! ## C7: hash purity and encoding unambiguity -/

theorem char_toNat_injective : Function.Injective Char.toNat := by
  intro a b h
  have h2 := congrArg Char.ofNat h
  rwa [Char.ofNat_toNat, Char.ofNat_toNat] at h2

theorem encStr_append_inj {s1 s2 : String} {r1 r2 : List Nat}
    (h : encStr s1 ++ r1 = encStr s2 ++ r2) : s1 = s2 ∧ r1 = r2 := by
  unfold encStr at h
  rw [List.cons_append, List.cons_append] at h
  have hlen : s1.length = s2.length := (List.cons.injEq _ _ _ _ ▸ h).1
  have htail : s1.data.map Char.toNat ++ r1 = s2.data.map Char.toNat ++ r2 :=
    (List.cons.injEq _ _ _ _ ▸ h).2
  have hml : (s1.data.map Char.toNat).length = (s2.data.map Char.toNat).length := by
    simpa [List.length_map] using hlen
  obtain ⟨hm, hr⟩ := List.append_inj htail hml
  exact ⟨String.ext (List.map_injective_iff.mpr char_toNat_injective hm), hr⟩

theorem encInt_append_inj {i j : Int} {r1 r2 : List Nat}
    (h : encInt i ++ r1 = encInt j ++ r2) : i = j ∧ r1 = r2 := by
  unfold encInt at h
  simp only [List.cons_append, List.nil_append, List.cons.injEq] at h
  obtain ⟨hs, hm, hr⟩ := h
  refine ⟨?_, hr⟩
  by_cases hi : i < 0 <;> by_cases hj : j < 0 <;> simp [hi, hj] at hs ⊢ <;> omega

theorem encTx_append_inj {t1 t2 : Transaction} {r1 r2 : List Nat}
    (h : encTx t1 ++ r1 = encTx t2 ++ r2) : t1 = t2 ∧ r1 = r2 := by
  unfold encTx at h
  rw [List.append_assoc, List.append_assoc, List.append_assoc, List.append_assoc] at h
  obtain ⟨hsend, h⟩ := encStr_append_inj h
  obtain ⟨hrec, h⟩ := encStr_append_inj h
  obtain ⟨hamt, hr⟩ := encInt_append_inj h
  cases t1; cases t2
  simp_all

theorem encTxConcat_inj : ∀ (ts1 ts2 : List Transaction) (r1 r2 : List Nat),
    ts1.length = ts2.length →
    ts1.foldr (fun t acc => encTx t ++ acc) [] ++ r1 =
      ts2.foldr (fun t acc => encTx t ++ acc) [] ++ r2 →
    ts1 = ts2 ∧ r1 = r2 := by
  intro ts1
  induction ts1 with
  | nil =>
      intro ts2 r1 r2 hlen h
      cases ts2 with
      | nil => simpa using h
      | cons t ts => simp at hlen
  | cons t ts ih =>
      intro ts2 r1 r2 hlen h
      cases ts2 with
      | nil => simp at hlen
      | cons u us =>
          simp only [List.foldr_cons, List.append_assoc] at h
          obtain ⟨ht, h⟩ := encTx_append_inj h
          obtain ⟨hts, hr⟩ := ih us r1 r2 (by simpa using hlen) h
          exact ⟨by rw [ht, hts], hr⟩

theorem encTxs_append_inj {ts1 ts2 : List Transaction} {r1 r2 : List Nat}
    (h : encTxs ts1 ++ r1 = encTxs ts2 ++ r2) : ts1 = ts2 ∧ r1 = r2 := by
  unfold encTxs at h
  rw [List.cons_append, List.cons_append] at h
  have hlen : ts1.length = ts2.length := (List.cons.injEq _ _ _ _ ▸ h).1
  exact encTxConcat_inj ts1 ts2 r1 r2 hlen (List.cons.injEq _ _ _ _ ▸ h).2

theorem encHash_append_inj {h1 h2 : HashStr} {r1 r2 : List Nat}
    (h : encHash h1 ++ r1 = encHash h2 ++ r2) : h1 = h2 ∧ r1 = r2 := by
  unfold encHash at h
  rw [List.cons_append, List.cons_append] at h
  have hlen : h1.length = h2.length := (List.cons.injEq _ _ _ _ ▸ h).1
  exact List.append_inj (List.cons.injEq _ _ _ _ ▸ h).2 hlen

theorem canonicalEncode_inj {b1 b2 : Block}
    (h : canonicalEncode b1 = canonicalEncode b2) : FieldsEq b1 b2 := by
  unfold canonicalEncode at h
  simp only [List.cons.injEq] at h
  obtain ⟨hidx, hts, h⟩ := h
  rw [List.append_assoc, List.append_assoc] at h
  obtain ⟨htxs, h⟩ := encTxs_append_inj h
  obtain ⟨hprev, h⟩ := encHash_append_inj h
  simp only [List.cons.injEq] at h
  exact ⟨hidx, hts, htxs, hprev, h.1, h.2.1⟩

theorem canonicalEncode_congr {b1 b2 : Block} (h : FieldsEq b1 b2) :
    canonicalEncode b1 = canonicalEncode b2 := by
  obtain ⟨h1, h2, h3, h4, h5, h6⟩ := h
  unfold canonicalEncode
  rw [h1, h2, h3, h4, h5, h6]

theorem replicate_marker_inj : ∀ (k1 k2 : Nat) (l1 l2 : List Nat),
    List.replicate k1 sentinel ++ 1 :: l1 = List.replicate k2 sentinel ++ 1 :: l2 →
    k1 = k2 ∧ l1 = l2 := by
  intro k1
  induction k1 with
  | zero =>
      intro k2 l1 l2 h
      cases k2 with
      | zero => simpa using h
      | succ k => simp [List.replicate_succ, sentinel] at h
  | succ k ih =>
      intro k2 l1 l2 h
      cases k2 with
      | zero => simp [List.replicate_succ, sentinel] at h
      | succ k2 =>
          simp only [List.replicate_succ, List.cons_append, List.cons.injEq] at h
          obtain ⟨hk, hl⟩ := ih k2 l1 l2 h.2
          exact ⟨by rw [hk], hl⟩

/-- C7: `computeHash` is a pure function of the block's fields excluding the
stored hash — two blocks agreeing on those fields have equal computed hashes —
and the canonical encoding is unambiguous, so any difference in those fields
changes the encoding and (under the idealised collision-free hash) the
computed hash. -/
theorem computeHash_spec (b1 b2 : Block) :
    (canonicalEncode b1 = canonicalEncode b2 ↔ FieldsEq b1 b2) ∧
    (computeHash b1 = computeHash b2 ↔ FieldsEq b1 b2) := by
  constructor
  · exact ⟨canonicalEncode_inj, canonicalEncode_congr⟩
  constructor
  · intro h
    unfold computeHash at h
    obtain ⟨_, hm⟩ := replicate_marker_inj _ _ _ _ h
    have : canonicalEncode b1 = canonicalEncode b2 := by
      have hinj : Function.Injective (fun n : Nat => n + 2) := by
        intro a b hab
        simpa using hab
      exact List.map_injective_iff.mpr hinj hm
    exact canonicalEncode_inj this
  · intro h
    unfold computeHash
    rw [canonicalEncode_congr h]

/-! ## C8: entry-point fallback when the blockchain file is missing -/

/-- C8: when the blockchain file does not exist, both `mine.py` and
`run_api.py` construct a fresh blockchain starting from the genesis block and
never take the load path; the load path is taken only when the file exists. -/
theorem chainInit_spec (fileArg : Option String) :
    mineChainInit fileArg false = ChainInit.fresh freshBlockchain ∧
    apiChainInit fileArg false = ChainInit.fresh freshBlockchain ∧
    freshBlockchain.chain = [genesisBlock] ∧
    (∀ f e, mineChainInit fileArg e = ChainInit.loadFromFile f → e = true) ∧
    (∀ f e, apiChainInit fileArg e = ChainInit.loadFromFile f → e = true) := by
  refine ⟨rfl, rfl, rfl, ?_, ?_⟩ <;>
    · intro f e h
      cases e with
      | true => rfl
      | false => exact absurd h (by simp [mineChainInit, apiChainInit])

/-- Witness for C8: with no `--blockchain-file` argument and a missing file,
both entry points construct the fresh genesis chain. -/
theorem chainInit_spec_witness :
    mineChainInit none false = ChainInit.fresh freshBlockchain ∧
    (mineChainInit none true = ChainInit.loadFromFile "blockchain.json" → True = True) :=
  ⟨(chainInit_spec none).1, fun h => by
    have := (chainInit_spec none).2.2.2.1 "blockchain.json" true h
    rfl⟩

/-! ## C9: run_node.py option resolution -/

/-- C9: in `run_node.py` a command-line value takes effect only when truthy —
a zero (or empty-host) argument is silently ignored in favour of the
config.json value or, failing that, the built-in defaults
("0.0.0.0", 5000, 4, 50) — so a zero difficulty can never be selected from
the command line. -/
theorem resolveNodeSettings_spec (args : NodeArgs) (config : NodeConfig) :
    (args.difficulty = some 0 →
      (resolveNodeSettings args config).difficulty = dictGetInt config.difficulty 4) ∧
    (∀ v, args.difficulty = some v → ¬ v = 0 →
      (resolveNodeSettings args config).difficulty = v) ∧
    (args.port = some 0 →
      (resolveNodeSettings args config).port = dictGetInt config.port 5000) ∧
    (args.host = some "" →
      (resolveNodeSettings args config).host = dictGetStr config.host "0.0.0.0") ∧
    (args.mining_reward = some 0 →
      (resolveNodeSettings args config).mining_reward = dictGetInt config.mining_reward 50) ∧
    ((resolveNodeSettings args config).difficulty = 0 → dictGetInt config.difficulty 4 = 0) ∧
    resolveNodeSettings ⟨none, none, none, none⟩ ⟨none, none, none, none⟩ =
      ⟨"0.0.0.0", 5000, 4, 50⟩ := by
  refine ⟨?_, ?_, ?_, ?_, ?_, ?_, rfl⟩
  · intro h; simp [resolveNodeSettings, pyOrInt, h]
  · intro v h hv; simp [resolveNodeSettings, pyOrInt, h, hv]
  · intro h; simp [resolveNodeSettings, pyOrInt, h]
  · intro h; simp [resolveNodeSettings, pyOrStr, h]
  · intro h; simp [resolveNodeSettings, pyOrInt, h]
  · intro h
    unfold resolveNodeSettings at h
    simp only at h
    cases hd : args.difficulty with
    | none => simpa [pyOrInt, hd] using h
    | some v =>
        by_cases hv : v = 0
        · simpa [pyOrInt, hd, hv] using h
        · rw [hd] at h
          simp [pyOrInt, hv] at h

/-! ## C10: the auto-mining dummy transaction -/

theorem add_transaction_accepted {bc : Blockchain} {t : Transaction}
    (h : txStructOk t = true) :
    (bc.add_transaction t).1 =
      { bc with pending_transactions := bc.pending_transactions ++ [t] } := by
  unfold Blockchain.add_transaction
  rw [if_pos h]

/-- Counterexample to C10 as stated: with an empty miner address the dummy
transaction fails structural admission, so the nonce search does start over
an empty pool and the mined block does not embed the dummy transaction. -/
theorem autoMineStep_counterexample :
    emptyAddrStep.1 = [] ∧
    (emptyAddrStep.2.map fun p =>
      decide (({ sender := "0x0", recipient := "", amount := 0 } : Transaction)
        ∈ p.2.transactions)) = some false := by
  decide

/-- C10 amended: provided the miner's address is a structurally valid
(non-empty) recipient, every auto-mode iteration with an empty pool admits
the dummy transaction (system sender "0x0", the miner's own address, amount
0) before mining, so the nonce search never starts over an empty pool and
every mined block embeds the dummy transaction in addition to the reward. -/
theorem autoMineStep_spec (bc : Blockchain) (addr : String) (ts fuel : Nat)
    (haddr : ¬ addr = "") (hpool : bc.pending_transactions = []) :
    (autoMineStep bc addr ts fuel).1 =
      [{ sender := "0x0", recipient := addr, amount := 0 }] ∧
    ¬ (autoMineStep bc addr ts fuel).1 = [] ∧
    "0x0" = SYSTEM_SENDER ∧
    (∀ out, (autoMineStep bc addr ts fuel).2 = some out →
      ({ sender := "0x0", recipient := addr, amount := 0 } : Transaction)
        ∈ out.2.transactions ∧
      rewardTx bc addr ∈ out.2.transactions) := by
  have hok : txStructOk { sender := "0x0", recipient := addr, amount := 0 } = true := by
    simp [txStructOk, haddr]
  have hbc1 : (bc.add_transaction { sender := "0x0", recipient := addr, amount := 0 }).1 =
      { bc with pending_transactions := [{ sender := "0x0", recipient := addr, amount := 0 }] } := by
    rw [add_transaction_accepted hok, hpool]
    rfl
  have hstep : autoMineStep bc addr ts fuel =
      ([{ sender := "0x0", recipient := addr, amount := 0 }],
        Blockchain.mine_pending_transactions
          { bc with pending_transactions := [{ sender := "0x0", recipient := addr, amount := 0 }] }
          addr ts fuel) := by
    unfold autoMineStep
    rw [hpool]
    simp only [List.length_nil, if_pos, hbc1]
  rw [hstep]
  refine ⟨rfl, by simp, rfl, ?_⟩
  intro out h
  obtain ⟨tip, n, hl, hf, hout2, hchain, hpend, hd, hr⟩ := mine_some_eq h
  rw [hout2]
  constructor
  · show _ ∈ (minedBlock _ addr ts tip n).transactions
    simp [minedBlock, mineBase]
  · show _ ∈ (minedBlock _ addr ts tip n).transactions
    simp only [minedBlock, mineBase]
    right
    exact List.mem_singleton_self _

/-- Witness for the amended C10: a concrete auto-mining iteration for
"addr-A" over an empty pool admits the dummy transaction before mining. -/
theorem autoMineStep_spec_witness :
    (autoMineStep (Blockchain.init 0 50) "addr-A" 0 8).1 =
      [{ sender := "0x0", recipient := "addr-A", amount := 0 }] :=
  (autoMineStep_spec (Blockchain.init 0 50) "addr-A" 0 8 (by decide) rfl).1

/-- Witness for C9: passing `--difficulty 0` with an empty config resolves to
the built-in default 4, and a truthy `--difficulty 7` takes effect. -/
theorem resolveNodeSettings_spec_witness :
    (resolveNodeSettings ⟨none, none, some 0, none⟩ ⟨none, none, none, none⟩).difficulty = 4 ∧
    (resolveNodeSettings ⟨none, none, some 7, none⟩ ⟨none, none, none, none⟩).difficulty = 7 := by
  constructor
  · exact (resolveNodeSettings_spec ⟨none, none, some 0, none⟩ ⟨none, none, none, none⟩).1 rfl
  · exact (resolveNodeSettings_spec ⟨none, none, some 7, none⟩
      ⟨none, none, none, none⟩).2.1 7 rfl (by decide)

end Ghalbir
